import Mathlib

/-!
Verification of the domino-chain solver (`ИКМ.py`, `scratch_12.py`).

The program decides whether a list of domino tiles can be laid out in a row
so that every adjacent pair of tiles matches (the right value of one tile
equals the left value of the next), tiles may be flipped, and if possible it
returns one valid arrangement materialised as a doubly-linked chain.

This file gives a shallow embedding of the data model and operations:
pure Python methods become Lean functions, the in-place swap/flip recursion
of `generate_permutations` and `generate_flips` is rendered as explicit
state passing (the mutated list is an argument and a result), and the
doubly-linked list is modelled as an arena of nodes addressed by index,
with `prev_node`/`next_node` stored as `Option` indices.
-/

/-- `class DominoTile`: a tile with a left and a right value. -/
structure DominoTile where
  value_left : Nat
  value_right : Nat
deriving DecidableEq, Repr

/-- `DominoTile.flip`: swaps the left and right values of the tile.
In Python this mutates the tile; here the flipped tile is returned. -/
def DominoTile.flip (t : DominoTile) : DominoTile :=
  { value_left := t.value_right, value_right := t.value_left }

/-- `str(tile)`: the two values rendered back to back, e.g. tile 2|4 as "24". -/
def tileStr (t : DominoTile) : String :=
  toString t.value_left ++ toString t.value_right

/-- The parallel assignment `tiles[start], tiles[i] = tiles[i], tiles[start]`.
Out-of-range indices leave the list unchanged (never hit by the program). -/
def swapList (l : List α) (i j : Nat) : List α :=
  match l[i]?, l[j]? with
  | some a, some b => (l.set i b).set j a
  | _, _ => l

@[simp] theorem swapList_length (l : List α) (i j : Nat) :
    (swapList l i j).length = l.length := by
  unfold swapList
  split <;> simp

/-- The recursive helper `permute(start)` of `generate_permutations`:
when `start` reaches the length, the current arrangement is recorded
(Python records clones; clones carry the same values); otherwise each index
`i` in `range(start, len(tiles))` is swapped into position `start` and the
suffix is permuted (the undo swap is implicit in the state-passing style:
the recursive call works on the swapped copy and the original is kept).
The recursion is structural on the number `len(tiles) - start` of positions
still to fill, which is the Python recursion depth; the caller passes
exactly that count, so `range' start (fuel + 1)` is `range(start, len(tiles))`
and fuel `0` is the `start == len(tiles)` base case. -/
def generate_permutations_aux (tiles : List DominoTile) (start : Nat) :
    Nat → List (List DominoTile)
  | 0 => [tiles]
  | fuel + 1 =>
    (List.range' start (fuel + 1)).flatMap
      (fun i => generate_permutations_aux (swapList tiles start i) (start + 1) fuel)

/-- `generate_permutations(tiles)`: all arrangements, via swaps from position 0. -/
def generate_permutations (tiles : List DominoTile) : List (List DominoTile) :=
  generate_permutations_aux tiles 0 tiles.length

/-- `tiles[index].flip()` as a list operation: flip the tile at `index`. -/
def flipAt : List DominoTile → Nat → List DominoTile
  | [], _ => []
  | t :: ts, 0 => t.flip :: ts
  | t :: ts, n + 1 => t :: flipAt ts n

@[simp] theorem flipAt_length (l : List DominoTile) (i : Nat) :
    (flipAt l i).length = l.length := by
  induction l generalizing i with
  | nil => rfl
  | cons t ts ih => cases i <;> simp [flipAt, ih]

/-- The recursive helper `flip(index)` of `generate_flips`: at the end the
current arrangement is recorded; otherwise first all combinations with the
tile at `index` unflipped, then all with it flipped (the second in-place
flip that restores the tile is implicit in the state-passing style).
As with `generate_permutations_aux`, the recursion is structural on the
number `len(tiles) - index` of positions still to decide (the Python
recursion depth), with fuel `0` the `index == len(tiles)` base case. -/
def generate_flips_aux (tiles : List DominoTile) (index : Nat) :
    Nat → List (List DominoTile)
  | 0 => [tiles]
  | fuel + 1 =>
    generate_flips_aux tiles (index + 1) fuel ++
      generate_flips_aux (flipAt tiles index) (index + 1) fuel

/-- `generate_flips(tiles)`: all flip combinations, from position 0. -/
def generate_flips (tiles : List DominoTile) : List (List DominoTile) :=
  generate_flips_aux tiles 0 tiles.length

/-- `is_valid_chain(tiles)` (identical to `check_chain_valid` in
`scratch_12.py`): every adjacent pair must satisfy
`tiles[i].value_right == tiles[i+1].value_left`; the Python loop returns
`False` at the first mismatch. -/
def is_valid_chain : List DominoTile → Bool
  | [] => true
  | [_] => true
  | t₁ :: t₂ :: rest =>
      t₁.value_right == t₂.value_left && is_valid_chain (t₂ :: rest)

/-- `class DominoNode`: one node of the doubly-linked chain.  The Python
object references `prev_node` / `next_node` are modelled as optional indices
into the chain's node arena. -/
structure DominoNode where
  tile : DominoTile
  prev_node : Option Nat
  next_node : Option Nat
deriving DecidableEq, Repr

/-- `class DominoLinkedChain`: the node arena plus the `node_first` and
`node_last` references (optional indices into `nodes`). -/
structure DominoLinkedChain where
  nodes : List DominoNode
  node_first : Option Nat
  node_last : Option Nat
deriving DecidableEq, Repr

/-- `DominoLinkedChain.__init__`: the empty chain. -/
def DominoLinkedChain.empty : DominoLinkedChain :=
  { nodes := [], node_first := none, node_last := none }

/-- `DominoLinkedChain.append_tile`: allocate a node holding `t`; if the
chain has a last node, link it forward to the new node and the new node back
to it; otherwise the new node becomes both first and last.  (The inner
`none` branch is unreachable: `node_last` always indexes into `nodes`.) -/
def DominoLinkedChain.append_tile (c : DominoLinkedChain) (t : DominoTile) :
    DominoLinkedChain :=
  let idx := c.nodes.length
  match c.node_last with
  | some j =>
    match c.nodes[j]? with
    | some nd =>
      { nodes := (c.nodes.set j { nd with next_node := some idx }) ++
          [{ tile := t, prev_node := some j, next_node := none }],
        node_first := c.node_first,
        node_last := some idx }
    | none => c
  | none =>
    { nodes := c.nodes ++ [{ tile := t, prev_node := none, next_node := none }],
      node_first := some idx,
      node_last := some idx }

/-- The `while current: ... current = current.next_node` traversal of
`to_list`, collecting tiles.  The fuel bounds the walk so the function is
total; all chains built by the program are traversed within
`nodes.length` steps. -/
def traverseNext (nodes : List DominoNode) : Nat → Option Nat → List DominoTile
  | 0, _ => []
  | _ + 1, none => []
  | fuel + 1, some i =>
    match nodes[i]? with
    | none => []
    | some nd => nd.tile :: traverseNext nodes fuel nd.next_node

/-- The symmetric backward traversal along `prev_node`, starting from a node. -/
def traversePrev (nodes : List DominoNode) : Nat → Option Nat → List DominoTile
  | 0, _ => []
  | _ + 1, none => []
  | fuel + 1, some i =>
    match nodes[i]? with
    | none => []
    | some nd => nd.tile :: traversePrev nodes fuel nd.prev_node

/-- The tiles of the chain in forward traversal order. -/
def DominoLinkedChain.tiles_list (c : DominoLinkedChain) : List DominoTile :=
  traverseNext c.nodes c.nodes.length c.node_first

/-- The tiles of the chain in backward traversal order (from `node_last`). -/
def DominoLinkedChain.tiles_list_rev (c : DominoLinkedChain) : List DominoTile :=
  traversePrev c.nodes c.nodes.length c.node_last

/-- `DominoLinkedChain.to_list`: the tiles rendered as strings, in forward
traversal order. -/
def DominoLinkedChain.to_list (c : DominoLinkedChain) : List String :=
  (c.tiles_list).map tileStr

/-- The loop `chain = DominoLinkedChain(); for tile in variant:
chain.append_tile(tile)`. -/
def chainOfTiles (ts : List DominoTile) : DominoLinkedChain :=
  ts.foldl DominoLinkedChain.append_tile DominoLinkedChain.empty

/-- The search of `build_if_possible`: scan the permutations in generation
order, for each its flip variants in generation order, and keep the first
variant passing `is_valid_chain`. -/
def firstValidVariant (tiles : List DominoTile) : Option (List DominoTile) :=
  ((generate_permutations tiles).flatMap generate_flips).find? is_valid_chain

/-- `DominoLinkedChain.build_if_possible(tiles)`: the first valid variant
materialised as a chain, or `None` when the whole enumeration fails. -/
def DominoLinkedChain.build_if_possible (tiles : List DominoTile) :
    Option DominoLinkedChain :=
  (firstValidVariant tiles).map chainOfTiles

/-! Spec-side notions: orientation assignments, the adjacency rule, the
unordered value pair of a tile, and the enumeration order described in the
specification. -/

/-- A per-tile orientation assignment applied positionally: `true` flips. -/
def applyFlips (bs : List Bool) (ts : List DominoTile) : List DominoTile :=
  List.zipWith (fun b t => if b then t.flip else t) bs ts

/-- The adjacency rule as stated by the spec: every adjacent pair `(A, B)`
satisfies `A`'s trailing value equals `B`'s leading value. -/
def chainMatches (l : List DominoTile) : Prop :=
  List.Chain' (fun a b => a.value_right = b.value_left) l

/-- The tile's unordered pair of values, as a sorted pair. -/
def DominoTile.normPair (t : DominoTile) : Nat × Nat :=
  if t.value_left ≤ t.value_right then (t.value_left, t.value_right)
  else (t.value_right, t.value_left)

/-- Spec-side solvability: some permutation of the input together with some
per-tile orientation assignment satisfies the adjacency rule throughout. -/
def SpecSolvable (tiles : List DominoTile) : Prop :=
  ∃ p bs, List.Perm p tiles ∧ bs.length = p.length ∧
    chainMatches (applyFlips bs p)

/-- All orientation assignments of a given length, in the fixed bit-order the
spec describes: each position unflipped before flipped, earlier positions
more significant. -/
def allBools : Nat → List (List Bool)
  | 0 => [[]]
  | n + 1 => (allBools n).map (false :: ·) ++ (allBools n).map (true :: ·)

/-- Modelled from the spec: permutations of a list of (distinct) indices in
lexicographic order, for the enumeration order the spec fixes
("permutation order: lexicographic by original index").  The fuel is the
length of the index list. -/
def lexIndexPerms : Nat → List Nat → List (List Nat)
  | 0, _ => [[]]
  | fuel + 1, l =>
    l.flatMap (fun x => (lexIndexPerms fuel (l.erase x)).map (x :: ·))

/-- Modelled from the spec: the input tiles in each index permutation, with
index permutations in lexicographic order. -/
def specLexPermutations (tiles : List DominoTile) : List (List DominoTile) :=
  (lexIndexPerms tiles.length (List.range tiles.length)).map
    (fun is => is.filterMap (fun i => tiles[i]?))

/-- Modelled from the spec: the full candidate enumeration the spec fixes —
permutations in lexicographic order by original index, and within each
permutation the flip combinations in the fixed bit-order. -/
def specLexEnumeration (tiles : List DominoTile) : List (List DominoTile) :=
  (specLexPermutations tiles).flatMap
    (fun p => (allBools p.length).map (fun bs => applyFlips bs p))

/-- Modelled from the spec: the first candidate passing validity in the
enumeration order the spec fixes. -/
def specLexFirstValid (tiles : List DominoTile) : Option (List DominoTile) :=
  (specLexEnumeration tiles).find? is_valid_chain

/-! Structure of the chain built by successive `append_tile` calls: node `i`
holds the `i`-th appended tile, its backward link points to `i - 1` (none at
the head) and its forward link to `i + 1` (none at the tail). -/

theorem append_tile_of_last (c : DominoLinkedChain) (j : Nat) (t : DominoTile)
    (nd : DominoNode) (hl : c.node_last = some j) (hn : c.nodes[j]? = some nd) :
    c.append_tile t =
      { nodes := (c.nodes.set j { nd with next_node := some c.nodes.length }) ++
          [{ tile := t, prev_node := some j, next_node := none }],
        node_first := c.node_first,
        node_last := some c.nodes.length } := by
  simp only [DominoLinkedChain.append_tile, hl, hn]

theorem chainOfTiles_spec (ts : List DominoTile) :
    (chainOfTiles ts).nodes.length = ts.length ∧
    (chainOfTiles ts).node_first = (if ts.length = 0 then none else some 0) ∧
    (chainOfTiles ts).node_last =
      (if ts.length = 0 then none else some (ts.length - 1)) ∧
    ∀ i, (h : i < ts.length) → (chainOfTiles ts).nodes[i]? =
      some { tile := ts[i],
             prev_node := if i = 0 then none else some (i - 1),
             next_node := if i = ts.length - 1 then none else some (i + 1) } := by
  induction ts using List.reverseRecOn with
  | nil => exact ⟨rfl, rfl, rfl, fun i h => absurd h (by simp at h)⟩
  | append_singleton xs x ih =>
    obtain ⟨ihlen, ihfirst, ihlast, ihnodes⟩ := ih
    have hfold : chainOfTiles (xs ++ [x]) =
        (chainOfTiles xs).append_tile x := by
      simp [chainOfTiles, List.foldl_append]
    cases xs with
    | nil =>
      refine ⟨rfl, rfl, rfl, ?_⟩
      intro i h
      have h0 : i = 0 := by
        simp only [List.nil_append, List.length_singleton] at h
        omega
      subst h0
      rfl
    | cons y ys =>
      set zs : List DominoTile := y :: ys with hzs
      have hzlen : 0 < zs.length := by simp [hzs]
      have hlast : (chainOfTiles zs).node_last = some (zs.length - 1) := by
        rw [ihlast, if_neg (by omega)]
      have hz1 : zs.length - 1 < zs.length := by omega
      have hnd : (chainOfTiles zs).nodes[zs.length - 1]? =
          some { tile := zs[zs.length - 1],
                 prev_node := if zs.length - 1 = 0 then none
                   else some (zs.length - 1 - 1),
                 next_node := none } := by
        have h1 := ihnodes (zs.length - 1) (by omega)
        rw [h1, if_pos rfl]
      rw [hfold, append_tile_of_last _ _ _ _ hlast hnd]
      have hfirst' : (chainOfTiles zs).node_first = some 0 := by
        rw [ihfirst, if_neg (by omega)]
      set NS : List DominoNode := (chainOfTiles zs).nodes.set (zs.length - 1)
        { tile := zs[zs.length - 1],
          prev_node := if zs.length - 1 = 0 then none
            else some (zs.length - 1 - 1),
          next_node := some (chainOfTiles zs).nodes.length } with hNS
      set nn : DominoNode :=
        { tile := x, prev_node := some (zs.length - 1), next_node := none }
        with hnn
      have hNSlen : NS.length = zs.length := by
        rw [hNS, List.length_set, ihlen]
      have hlen' : (zs ++ [x]).length = zs.length + 1 := by simp
      have hne0 : ¬ ((zs ++ [x]).length = 0) := by rw [hlen']; omega
      refine ⟨?_, ?_, ?_, ?_⟩
      · show (NS ++ [nn]).length = (zs ++ [x]).length
        rw [List.length_append, hNSlen, hlen', List.length_singleton]
      · show (chainOfTiles zs).node_first = _
        rw [hfirst', if_neg hne0]
      · show some (chainOfTiles zs).nodes.length = _
        rw [if_neg hne0, ihlen, hlen', Nat.add_sub_cancel]
      · intro i h
        have h2 : i < zs.length + 1 := by rw [hlen'] at h; exact h
        show (NS ++ [nn])[i]? = _
        by_cases hi : i < zs.length
        · have e1 : (NS ++ [nn])[i]? = NS[i]? :=
            List.getElem?_append_left (by rw [hNSlen]; omega)
          rw [e1]
          by_cases hil : i = zs.length - 1
          · subst hil
            have e2 : NS[zs.length - 1]? =
                some { tile := zs[zs.length - 1],
                       prev_node := if zs.length - 1 = 0 then none
                         else some (zs.length - 1 - 1),
                       next_node := some (chainOfTiles zs).nodes.length } :=
              List.getElem?_set_self (by rw [ihlen]; omega)
            rw [e2, ihlen]
            have hz2 : zs.length - 1 < (zs ++ [x]).length := by
              rw [hlen']; omega
            have e3 : (zs ++ [x])[zs.length - 1]
                = zs[zs.length - 1] :=
              List.getElem_append_left (by omega)
            have e4 : ¬ (zs.length - 1 = (zs ++ [x]).length - 1) := by
              rw [hlen']; omega
            simp only [Option.some.injEq, DominoNode.mk.injEq]
            refine ⟨e3.symm, trivial, ?_⟩
            rw [if_neg e4]
            have h5 : zs.length - 1 + 1 = zs.length := by omega
            rw [h5]
          · have e2 : NS[i]? = (chainOfTiles zs).nodes[i]? :=
              List.getElem?_set_ne (fun hc => hil hc.symm)
            rw [e2, ihnodes i hi]
            have e3 : (zs ++ [x])[i] = zs[i] :=
              List.getElem_append_left hi
            have e4 : ¬ (i = (zs ++ [x]).length - 1) := by rw [hlen']; omega
            simp only [Option.some.injEq, DominoNode.mk.injEq]
            exact ⟨e3.symm, trivial, by rw [if_neg hil, if_neg e4]⟩
        · have hix : i = zs.length := by omega
          subst hix
          have e1 : (NS ++ [nn])[zs.length]? = [nn][zs.length - NS.length]? :=
            List.getElem?_append_right (by rw [hNSlen])
          have e2 : zs.length - NS.length = 0 := by rw [hNSlen]; omega
          rw [e1, e2]
          have hz3 : zs.length < (zs ++ [x]).length := by
            rw [hlen']; omega
          have e3 : (zs ++ [x])[zs.length] = x := by
            rw [List.getElem_append_right (by omega)]
            simp
          have e4 : zs.length = (zs ++ [x]).length - 1 := by
            rw [hlen', Nat.add_sub_cancel]
          have e5 : [nn][0]? = some nn := rfl
          rw [e5, hnn]
          simp only [Option.some.injEq, DominoNode.mk.injEq]
          refine ⟨e3.symm, ?_, ?_⟩
          · rw [if_neg (show ¬ (zs.length = 0) by omega)]
          · rw [if_pos e4]

theorem traverseNext_none (nodes : List DominoNode) (fuel : Nat) :
    traverseNext nodes fuel none = [] := by
  cases fuel <;> rfl

theorem traversePrev_none (nodes : List DominoNode) (fuel : Nat) :
    traversePrev nodes fuel none = [] := by
  cases fuel <;> rfl

theorem traverseNext_cons (nodes : List DominoNode) (fuel i : Nat)
    (t : DominoTile) (p nx : Option Nat)
    (h : nodes[i]? = some { tile := t, prev_node := p, next_node := nx }) :
    traverseNext nodes (fuel + 1) (some i) = t :: traverseNext nodes fuel nx := by
  have h1 : traverseNext nodes (fuel + 1) (some i) =
      (match nodes[i]? with
       | none => []
       | some nd => nd.tile :: traverseNext nodes fuel nd.next_node) := rfl
  rw [h1, h]

theorem traversePrev_cons (nodes : List DominoNode) (fuel i : Nat)
    (t : DominoTile) (p nx : Option Nat)
    (h : nodes[i]? = some { tile := t, prev_node := p, next_node := nx }) :
    traversePrev nodes (fuel + 1) (some i) = t :: traversePrev nodes fuel p := by
  have h1 : traversePrev nodes (fuel + 1) (some i) =
      (match nodes[i]? with
       | none => []
       | some nd => nd.tile :: traversePrev nodes fuel nd.prev_node) := rfl
  rw [h1, h]

theorem traverseNext_chainOfTiles (ts : List DominoTile) :
    ∀ fuel i, i < ts.length → ts.length - i ≤ fuel →
      traverseNext (chainOfTiles ts).nodes fuel (some i) = ts.drop i := by
  obtain ⟨hlen, _, _, hnodes⟩ := chainOfTiles_spec ts
  intro fuel
  induction fuel with
  | zero => intro i hi hf; omega
  | succ fuel ih =>
    intro i hi hf
    rw [traverseNext_cons _ _ _ _ _ _ (hnodes i hi)]
    by_cases hil : i = ts.length - 1
    · rw [if_pos hil, traverseNext_none]
      have h1 : ts.drop i = ts[i] :: ts.drop (i + 1) := List.drop_eq_getElem_cons hi
      have h2 : ts.drop (i + 1) = [] := by
        apply List.drop_eq_nil_of_le; omega
      rw [h1, h2]
    · rw [if_neg hil, ih (i + 1) (by omega) (by omega)]
      exact (List.drop_eq_getElem_cons hi).symm

theorem traversePrev_chainOfTiles (ts : List DominoTile) :
    ∀ fuel i, i < ts.length → i + 1 ≤ fuel →
      traversePrev (chainOfTiles ts).nodes fuel (some i) =
        (ts.take (i + 1)).reverse := by
  obtain ⟨hlen, _, _, hnodes⟩ := chainOfTiles_spec ts
  intro fuel
  induction fuel with
  | zero => intro i hi hf; omega
  | succ fuel ih =>
    intro i hi hf
    rw [traversePrev_cons _ _ _ _ _ _ (hnodes i hi)]
    have htake : ts.take (i + 1) = ts.take i ++ [ts[i]] := by
      rw [List.take_succ, List.getElem?_eq_getElem hi]
      rfl
    by_cases hi0 : i = 0
    · rw [if_pos hi0, traversePrev_none]
      subst hi0
      rw [htake]
      simp
    · rw [if_neg hi0, ih (i - 1) (by omega) (by omega)]
      have h5 : i - 1 + 1 = i := by omega
      rw [h5, htake, List.reverse_append]
      simp

theorem tiles_list_chainOfTiles (ts : List DominoTile) :
    (chainOfTiles ts).tiles_list = ts := by
  obtain ⟨hlen, hfirst, _, _⟩ := chainOfTiles_spec ts
  rw [DominoLinkedChain.tiles_list, hlen, hfirst]
  cases ts with
  | nil => rfl
  | cons y ys =>
    rw [if_neg (by simp)]
    rw [traverseNext_chainOfTiles (y :: ys) (y :: ys).length 0 (by simp)
      (by omega)]
    rfl

theorem tiles_list_rev_chainOfTiles (ts : List DominoTile) :
    (chainOfTiles ts).tiles_list_rev = ts.reverse := by
  obtain ⟨hlen, _, hlast, _⟩ := chainOfTiles_spec ts
  rw [DominoLinkedChain.tiles_list_rev, hlen, hlast]
  cases ts with
  | nil => rfl
  | cons y ys =>
    rw [if_neg (by simp)]
    rw [traversePrev_chainOfTiles (y :: ys) (y :: ys).length ((y :: ys).length - 1)
      (by simp) (by simp only [List.length_cons]; omega)]
    congr 1
    have h1 : (y :: ys).length - 1 + 1 = (y :: ys).length := by simp
    rw [h1, List.take_length]

theorem to_list_chainOfTiles (ts : List DominoTile) :
    (chainOfTiles ts).to_list = ts.map tileStr := by
  rw [DominoLinkedChain.to_list, tiles_list_chainOfTiles]

/-! The swap-based permutation generator: basic properties of `swapList` and
the characterisation of the lists produced by `generate_permutations_aux`. -/

theorem cons_set_perm (l : List α) (j : Nat) (hj : j < l.length) (a : α) :
    List.Perm (l[j] :: l.set j a) (a :: l) := by
  induction l generalizing j with
  | nil => simp at hj
  | cons b t ih =>
    cases j with
    | zero =>
      simpa using List.Perm.swap a b t
    | succ j =>
      have hj' : j < t.length := by simpa using hj
      exact (List.Perm.swap b (t[j]) (t.set j a)).trans
        (((ih j hj').cons b).trans (List.Perm.swap a b t))

theorem set_set_perm (l : List α) (i j : Nat) (hi : i < l.length)
    (hj : j < l.length) :
    List.Perm ((l.set i (l[j])).set j (l[i])) l := by
  induction l generalizing i j with
  | nil => simp at hi
  | cons b t ih =>
    cases i with
    | zero =>
      cases j with
      | zero => simp
      | succ j =>
        have hj' : j < t.length := by simpa using hj
        simpa using cons_set_perm t j hj' b
    | succ i =>
      have hi' : i < t.length := by simpa using hi
      cases j with
      | zero =>
        simpa using cons_set_perm t i hi' b
      | succ j =>
        have hj' : j < t.length := by simpa using hj
        simpa using (ih i j hi' hj').cons b

theorem swapList_perm (l : List α) (i j : Nat) :
    List.Perm (swapList l i j) l := by
  unfold swapList
  split
  next a b hi hj =>
    obtain ⟨hi', hia⟩ := List.getElem?_eq_some_iff.mp hi
    obtain ⟨hj', hjb⟩ := List.getElem?_eq_some_iff.mp hj
    subst hia hjb
    exact set_set_perm l i j hi' hj'
  next => exact List.Perm.refl _

theorem swapList_take (l : List α) (i j k : Nat) (hik : k ≤ i) (hjk : k ≤ j) :
    (swapList l i j).take k = l.take k := by
  unfold swapList
  split
  next a b hi hj =>
    have e1 : ((l.take k).set i b).set j a = (l.take k).set i b :=
      List.set_eq_of_length_le (by
        rw [List.length_set]
        exact Nat.le_trans (List.length_take_le _ _) hjk)
    have e2 : (l.take k).set i b = l.take k :=
      List.set_eq_of_length_le (Nat.le_trans (List.length_take_le _ _) hik)
    rw [List.set_take, List.set_take, e1, e2]
  next => rfl

theorem swapList_getElem?_left (l : List α) (s i : Nat) (hs : s < l.length)
    (hi : i < l.length) : (swapList l s i)[s]? = l[i]? := by
  have hls : l[s]? = some (l[s]) := List.getElem?_eq_getElem hs
  have hli : l[i]? = some (l[i]) := List.getElem?_eq_getElem hi
  have hsw : swapList l s i = (l.set s (l[i])).set i (l[s]) := by
    unfold swapList
    rw [hls, hli]
  rw [hsw, hli]
  by_cases hsi : i = s
  · subst hsi
    rw [List.set_set, List.getElem?_set_self (by simpa using hi)]
  · rw [List.getElem?_set_ne hsi, List.getElem?_set_self (by simpa using hs)]

theorem swapList_drop_perm (l : List α) (s i : Nat) (hsi : s ≤ i) :
    List.Perm ((swapList l s i).drop s) (l.drop s) := by
  unfold swapList
  split
  next a b hla hlb =>
    obtain ⟨hs', ha⟩ := List.getElem?_eq_some_iff.mp hla
    obtain ⟨hi', hb⟩ := List.getElem?_eq_some_iff.mp hlb
    rw [List.drop_set, if_neg (by omega), List.drop_set, if_neg (by omega)]
    have e0 : s - s = 0 := by omega
    rw [e0]
    have hlen : s < l.length := hs'
    have hdlen : 0 < (l.drop s).length := by simp; omega
    have hdlen2 : i - s < (l.drop s).length := by simp; omega
    have ea : a = (l.drop s)[0] := by
      rw [List.getElem_drop, ← ha]
      congr 1
    have eb : b = (l.drop s)[i - s] := by
      rw [List.getElem_drop]
      rw [← hb]
      congr 1
      omega
    rw [ea, eb]
    exact set_set_perm (l.drop s) 0 (i - s) hdlen hdlen2
  next => exact List.Perm.refl _

theorem mem_generate_permutations_aux :
    ∀ (d : Nat) (tiles l : List DominoTile) (start : Nat),
      start ≤ tiles.length → tiles.length - start = d →
      (l ∈ generate_permutations_aux tiles start d ↔
        (l.length = tiles.length ∧ l.take start = tiles.take start ∧
          List.Perm (l.drop start) (tiles.drop start))) := by
  intro d
  induction d with
  | zero =>
    intro tiles l start hle hd
    have hstart : start = tiles.length := by omega
    subst hstart
    rw [generate_permutations_aux]
    constructor
    · intro hmem
      have hl : l = tiles := by simpa using hmem
      subst hl
      exact ⟨rfl, rfl, List.Perm.refl _⟩
    · rintro ⟨h1, h2, h3⟩
      have hlt : l = tiles := by
        have e1 : l.take tiles.length = l := by rw [← h1, List.take_length]
        rw [← e1, h2, List.take_length]
      simp [hlt]
  | succ d ih =>
    intro tiles l start hle hd
    have hlt : start < tiles.length := by omega
    rw [generate_permutations_aux, List.mem_flatMap]
    constructor
    · rintro ⟨i, hi, hmem⟩
      rw [List.mem_range'] at hi
      obtain ⟨k, hk, hik⟩ := hi
      have hrange : start ≤ i ∧ i < tiles.length := by omega
      have hswlen : (swapList tiles start i).length = tiles.length :=
        swapList_length tiles start i
      rw [ih (swapList tiles start i) l (start + 1) (by omega) (by omega)]
        at hmem
      obtain ⟨h1, h2, h3⟩ := hmem
      rw [hswlen] at h1
      have hls : start < l.length := by omega
      have hgl : l[start]? = tiles[i]? := by
        have e1 : l[start]? = (l.take (start + 1))[start]? :=
          (List.getElem?_take_of_lt (by omega)).symm
        have e2 : ((swapList tiles start i).take (start + 1))[start]? =
            (swapList tiles start i)[start]? :=
          List.getElem?_take_of_lt (by omega)
        rw [e1, h2, e2, swapList_getElem?_left tiles start i hlt hrange.2]
      refine ⟨h1, ?_, ?_⟩
      · have e1 : l.take start = (l.take (start + 1)).take start := by
          rw [List.take_take]
          congr 1
          omega
        have e2 : ((swapList tiles start i).take (start + 1)).take start =
            (swapList tiles start i).take start := by
          rw [List.take_take]
          congr 1
          omega
        rw [e1, h2, e2, swapList_take tiles start i start (by omega) (by omega)]
      · have hb : start < (swapList tiles start i).length := by omega
        have dl : l.drop start = l[start] :: l.drop (start + 1) :=
          List.drop_eq_getElem_cons hls
        have dsw : (swapList tiles start i).drop start =
            (swapList tiles start i)[start] ::
              (swapList tiles start i).drop (start + 1) :=
          List.drop_eq_getElem_cons hb
        have hgl2 : l[start] = (swapList tiles start i)[start] := by
          have h4 := hgl
          rw [List.getElem?_eq_getElem hls,
            ← swapList_getElem?_left tiles start i hlt hrange.2,
            List.getElem?_eq_getElem hb] at h4
          exact Option.some.inj h4
        rw [dl, hgl2]
        have final : List.Perm ((swapList tiles start i)[start] ::
            (swapList tiles start i).drop (start + 1)) (tiles.drop start) := by
          rw [← dsw]
          exact swapList_drop_perm tiles start i hrange.1
        exact (h3.cons _).trans final
    · rintro ⟨h1, h2, h3⟩
      have hls : start < l.length := by omega
      have hmem0 : l[start] ∈ l.drop start := by
        rw [List.drop_eq_getElem_cons hls]
        exact List.mem_cons_self _ _
      have hmem1 : l[start] ∈ tiles.drop start := h3.mem_iff.mp hmem0
      obtain ⟨k, hk, hke⟩ := List.getElem_of_mem hmem1
      have hklen : (tiles.drop start).length = tiles.length - start := by simp
      have hi : start + k < tiles.length := by omega
      have htilesi : tiles[start + k] = l[start] := by
        rw [← hke, List.getElem_drop]
      have hswlen : (swapList tiles start (start + k)).length = tiles.length :=
        swapList_length _ _ _
      refine ⟨start + k, ?_, ?_⟩
      · rw [List.mem_range']
        exact ⟨k, by omega, by omega⟩
      · rw [ih (swapList tiles start (start + k)) l (start + 1) (by omega)
          (by omega)]
        have hswst : (swapList tiles start (start + k))[start]? =
            some (l[start]) := by
          rw [swapList_getElem?_left tiles start (start + k) hlt hi,
            List.getElem?_eq_getElem hi, htilesi]
        refine ⟨by omega, ?_, ?_⟩
        · rw [List.take_succ, List.take_succ, h2,
            swapList_take tiles start (start + k) start (by omega) (by omega),
            List.getElem?_eq_getElem hls, hswst]
        · have hb : start < (swapList tiles start (start + k)).length := by omega
          have dl : l.drop start = l[start] :: l.drop (start + 1) :=
            List.drop_eq_getElem_cons hls
          have dsw : (swapList tiles start (start + k)).drop start =
              (swapList tiles start (start + k))[start] ::
                (swapList tiles start (start + k)).drop (start + 1) :=
            List.drop_eq_getElem_cons hb
          have hgl2 : (swapList tiles start (start + k))[start] =
              l[start] := by
            have h4 := hswst
            rw [List.getElem?_eq_getElem hb] at h4
            exact Option.some.inj h4
          have hperm : List.Perm (l[start] :: l.drop (start + 1))
              (l[start] :: (swapList tiles start (start + k)).drop (start + 1)) := by
            rw [← dl, ← hgl2, ← dsw]
            exact h3.trans
              (swapList_drop_perm tiles start (start + k) (by omega)).symm
          exact hperm.cons_inv

theorem mem_generate_permutations (tiles l : List DominoTile) :
    l ∈ generate_permutations tiles ↔ List.Perm l tiles := by
  rw [generate_permutations,
    mem_generate_permutations_aux tiles.length tiles l 0 (by omega) (by omega)]
  constructor
  · rintro ⟨-, -, h⟩
    simpa using h
  · intro h
    exact ⟨h.length_eq, rfl, by simpa using h⟩

/-! The flip generator produces exactly the orientation assignments, in the
fixed bit-order `allBools` describes. -/

@[simp] theorem applyFlips_nil (ts : List DominoTile) : applyFlips [] ts = [] :=
  rfl

@[simp] theorem applyFlips_cons (b : Bool) (bs : List Bool) (t : DominoTile)
    (ts : List DominoTile) :
    applyFlips (b :: bs) (t :: ts) =
      (if b then t.flip else t) :: applyFlips bs ts := rfl

theorem flipAt_eq (tiles : List DominoTile) (i : Nat) (h : i < tiles.length) :
    flipAt tiles i =
      tiles.take i ++ (tiles[i]).flip :: tiles.drop (i + 1) := by
  induction tiles generalizing i with
  | nil => simp at h
  | cons t ts ih =>
    cases i with
    | zero => simp [flipAt]
    | succ i =>
      have h' : i < ts.length := by simpa using h
      simp [flipAt, ih i h']

theorem generate_flips_aux_eq :
    ∀ (d : Nat) (tiles : List DominoTile) (index : Nat),
      index ≤ tiles.length → tiles.length - index = d →
      generate_flips_aux tiles index d =
        (allBools d).map
          (fun bs => tiles.take index ++ applyFlips bs (tiles.drop index)) := by
  intro d
  induction d with
  | zero =>
    intro tiles index hle hd
    have h : index = tiles.length := by omega
    subst h
    rw [generate_flips_aux]
    simp [allBools]
  | succ d ih =>
    intro tiles index hle hd
    have hlt : index < tiles.length := by omega
    have hA : (tiles.take index).length = index := by
      rw [List.length_take]; omega
    have hdropc : tiles.drop index = tiles[index] :: tiles.drop (index + 1) :=
      List.drop_eq_getElem_cons hlt
    have htakes : tiles.take (index + 1) = tiles.take index ++ [tiles[index]] := by
      rw [List.take_succ, List.getElem?_eq_getElem hlt]
      rfl
    have hfl : flipAt tiles index =
        tiles.take index ++ (tiles[index]).flip :: tiles.drop (index + 1) :=
      flipAt_eq tiles index hlt
    have hidx : index + 1 = (tiles.take index).length + 1 := by rw [hA]
    have hfltake : (flipAt tiles index).take (index + 1) =
        tiles.take index ++ [(tiles[index]).flip] := by
      rw [hfl, hidx, List.take_append]
      rfl
    have hfldrop : (flipAt tiles index).drop (index + 1) =
        tiles.drop (index + 1) := by
      rw [hfl, hidx, List.drop_append]
      rfl
    rw [generate_flips_aux]
    rw [ih tiles (index + 1) (by omega) (by omega)]
    rw [ih (flipAt tiles index) (index + 1) (by rw [flipAt_length]; omega)
      (by rw [flipAt_length]; omega)]
    simp only [hfltake, hfldrop]
    simp only [allBools, List.map_append, List.map_map]
    congr 1
    · apply List.map_congr_left
      intro bs _
      simp only [Function.comp_apply, hdropc, applyFlips_cons, htakes,
        List.append_assoc, List.singleton_append, Bool.false_eq_true, if_false]
    · apply List.map_congr_left
      intro bs _
      simp only [Function.comp_apply, hdropc, applyFlips_cons,
        List.append_assoc, List.singleton_append, if_true]

theorem generate_flips_eq (tiles : List DominoTile) :
    generate_flips tiles =
      (allBools tiles.length).map (fun bs => applyFlips bs tiles) := by
  have h := generate_flips_aux_eq tiles.length tiles 0 (by omega) (by omega)
  simpa [generate_flips] using h

theorem mem_allBools (n : Nat) (bs : List Bool) :
    bs ∈ allBools n ↔ bs.length = n := by
  induction n generalizing bs with
  | zero =>
    simp [allBools, List.length_eq_zero]
  | succ n ih =>
    cases bs with
    | nil => simp [allBools]
    | cons b tl =>
      cases b <;> simp [allBools, ih]

theorem mem_generate_flips (tiles l : List DominoTile) :
    l ∈ generate_flips tiles ↔
      ∃ bs, bs.length = tiles.length ∧ l = applyFlips bs tiles := by
  rw [generate_flips_eq, List.mem_map]
  constructor
  · rintro ⟨bs, hbs, rfl⟩
    exact ⟨bs, (mem_allBools _ _).mp hbs, rfl⟩
  · rintro ⟨bs, hbs, rfl⟩
    exact ⟨bs, (mem_allBools _ _).mpr hbs, rfl⟩

/-! The validity predicate of the code agrees with the spec's adjacency
condition, and flipping does not change a tile's unordered value pair. -/

theorem is_valid_chain_iff (l : List DominoTile) :
    is_valid_chain l = true ↔ chainMatches l := by
  induction l with
  | nil => simp [is_valid_chain, chainMatches]
  | cons t ts ih =>
    cases ts with
    | nil => simp [is_valid_chain, chainMatches]
    | cons t2 rest =>
      rw [is_valid_chain, chainMatches, List.chain'_cons, Bool.and_eq_true,
        beq_iff_eq]
      rw [chainMatches] at ih
      rw [ih]

theorem normPair_flip (t : DominoTile) : t.flip.normPair = t.normPair := by
  unfold DominoTile.flip DominoTile.normPair
  split_ifs with h1 h2 h2 <;> simp [Prod.ext_iff] at * <;> omega

theorem applyFlips_length (bs : List Bool) (ts : List DominoTile)
    (h : bs.length = ts.length) : (applyFlips bs ts).length = ts.length := by
  simp [applyFlips, h]

theorem applyFlips_map_normPair (bs : List Bool) (ts : List DominoTile)
    (h : bs.length = ts.length) :
    (applyFlips bs ts).map DominoTile.normPair = ts.map DominoTile.normPair := by
  induction ts generalizing bs with
  | nil => simp [applyFlips]
  | cons t ts ih =>
    cases bs with
    | nil => simp at h
    | cons b bs =>
      have h' : bs.length = ts.length := by simpa using h
      cases b <;> simp [ih bs h', normPair_flip]

/-! Characterisation of a successful search: `build_if_possible` succeeds
exactly when some permutation of the input with some orientation assignment
satisfies the adjacency rule. -/

theorem firstValidVariant_some_iff (tiles : List DominoTile) :
    (∃ v, firstValidVariant tiles = some v) ↔ SpecSolvable tiles := by
  rw [firstValidVariant]
  rw [← Option.isSome_iff_exists, List.find?_isSome]
  constructor
  · rintro ⟨v, hv, hvalid⟩
    rw [List.mem_flatMap] at hv
    obtain ⟨p, hp, hvp⟩ := hv
    rw [mem_generate_permutations] at hp
    rw [mem_generate_flips] at hvp
    obtain ⟨bs, hbs, rfl⟩ := hvp
    exact ⟨p, bs, hp, hbs, (is_valid_chain_iff _).mp hvalid⟩
  · rintro ⟨p, bs, hp, hbs, hmatch⟩
    refine ⟨applyFlips bs p, ?_, (is_valid_chain_iff _).mpr hmatch⟩
    rw [List.mem_flatMap]
    refine ⟨p, ?_, ?_⟩
    · rw [mem_generate_permutations]
      exact hp
    · rw [mem_generate_flips]
      exact ⟨bs, hbs, rfl⟩

theorem build_if_possible_some_iff (tiles : List DominoTile) :
    (∃ c, DominoLinkedChain.build_if_possible tiles = some c) ↔
      SpecSolvable tiles := by
  rw [← firstValidVariant_some_iff]
  unfold DominoLinkedChain.build_if_possible
  constructor
  · rintro ⟨c, hc⟩
    obtain ⟨v, hv, -⟩ := Option.map_eq_some'.mp hc
    exact ⟨v, hv⟩
  · rintro ⟨v, hv⟩
    exact ⟨chainOfTiles v, by rw [hv]; rfl⟩

/-- C1: the solver returns a chain if and only if some permutation of the
input together with some per-tile orientation assignment makes every
adjacent pair match; it returns `None` exactly when no such arrangement
exists — no false positives and no false negatives. -/
theorem build_if_possible_succeeds_iff_arrangeable (tiles : List DominoTile) :
    ((∃ c, DominoLinkedChain.build_if_possible tiles = some c) ↔
      SpecSolvable tiles) ∧
    (DominoLinkedChain.build_if_possible tiles = none ↔
      ¬ SpecSolvable tiles) := by
  refine ⟨build_if_possible_some_iff tiles, ?_, ?_⟩
  · intro hn hs
    obtain ⟨c, hc⟩ := (build_if_possible_some_iff tiles).mpr hs
    rw [hn] at hc
    exact Option.noConfusion hc
  · intro hns
    cases hb : DominoLinkedChain.build_if_possible tiles with
    | none => rfl
    | some c =>
      rw [← build_if_possible_some_iff tiles] at hns
      exact absurd ⟨c, hb⟩ hns

/-- C2: on success the returned chain has the same length as the input,
uses each input tile exactly once as a multiset of unordered value pairs,
and every adjacent pair of tiles in the chain matches. -/
theorem build_if_possible_chain_properties (tiles : List DominoTile)
    (c : DominoLinkedChain)
    (h : DominoLinkedChain.build_if_possible tiles = some c) :
    c.tiles_list.length = tiles.length ∧
    List.Perm (c.tiles_list.map DominoTile.normPair)
      (tiles.map DominoTile.normPair) ∧
    chainMatches c.tiles_list := by
  rw [DominoLinkedChain.build_if_possible] at h
  obtain ⟨v, hv, rfl⟩ := Option.map_eq_some'.mp h
  rw [firstValidVariant] at hv
  have hvalid : is_valid_chain v = true := List.find?_some hv
  have hmem : v ∈ (generate_permutations tiles).flatMap generate_flips :=
    List.mem_of_find?_eq_some hv
  rw [List.mem_flatMap] at hmem
  obtain ⟨p, hp, hvp⟩ := hmem
  rw [mem_generate_permutations] at hp
  rw [mem_generate_flips] at hvp
  obtain ⟨bs, hbs, rfl⟩ := hvp
  rw [tiles_list_chainOfTiles]
  refine ⟨?_, ?_, (is_valid_chain_iff _).mp hvalid⟩
  · rw [applyFlips_length bs p hbs, hp.length_eq]
  · rw [applyFlips_map_normPair bs p hbs]
    exact hp.map _

/-- Witness for C2 at the concrete input 02, 04, 42, whose first valid
variant is 20, 04, 42. -/
theorem build_if_possible_chain_properties_witness :
    (chainOfTiles [⟨2,0⟩, ⟨0,4⟩, ⟨4,2⟩]).tiles_list.length =
        ([⟨0,2⟩, ⟨0,4⟩, ⟨4,2⟩] : List DominoTile).length ∧
    List.Perm
      ((chainOfTiles [⟨2,0⟩, ⟨0,4⟩, ⟨4,2⟩]).tiles_list.map DominoTile.normPair)
      (([⟨0,2⟩, ⟨0,4⟩, ⟨4,2⟩] : List DominoTile).map DominoTile.normPair) ∧
    chainMatches (chainOfTiles [⟨2,0⟩, ⟨0,4⟩, ⟨4,2⟩]).tiles_list :=
  build_if_possible_chain_properties [⟨0,2⟩, ⟨0,4⟩, ⟨4,2⟩]
    (chainOfTiles [⟨2,0⟩, ⟨0,4⟩, ⟨4,2⟩]) (by decide)

/-- C3: the three tiles 31, 00, 13 cannot be arranged: the solver returns
`None`, and indeed no permutation with any orientation assignment
satisfies the adjacency rule. -/
theorem build_if_possible_31_00_13_fails :
    DominoLinkedChain.build_if_possible [⟨3,1⟩, ⟨0,0⟩, ⟨1,3⟩] = none ∧
    ¬ SpecSolvable [⟨3,1⟩, ⟨0,0⟩, ⟨1,3⟩] := by
  have hnone : DominoLinkedChain.build_if_possible
      [⟨3,1⟩, ⟨0,0⟩, ⟨1,3⟩] = none := by decide
  refine ⟨hnone, ?_⟩
  intro hs
  obtain ⟨c, hc⟩ := (build_if_possible_some_iff _).mpr hs
  rw [hnone] at hc
  exact Option.noConfusion hc

theorem generate_permutations_singleton (t : DominoTile) :
    generate_permutations [t] = [[t]] := rfl

/-- C4: on the empty list the solver succeeds with the empty chain, and on
any single tile it succeeds with the chain holding exactly that tile. -/
theorem build_if_possible_small_inputs :
    (DominoLinkedChain.build_if_possible [] = some (chainOfTiles []) ∧
      (chainOfTiles []).tiles_list = []) ∧
    ∀ t : DominoTile,
      DominoLinkedChain.build_if_possible [t] = some (chainOfTiles [t]) ∧
      (chainOfTiles [t]).tiles_list = [t] := by
  refine ⟨⟨by decide, rfl⟩, ?_⟩
  intro t
  refine ⟨?_, tiles_list_chainOfTiles [t]⟩
  rw [DominoLinkedChain.build_if_possible, firstValidVariant,
    generate_permutations_singleton]
  have h1 : generate_flips [t] = [[t], [t.flip]] := by
    rw [generate_flips_eq]
    rfl
  have h2 : ([[t]] : List (List DominoTile)).flatMap generate_flips
      = [[t], [t.flip]] := by
    rw [List.flatMap_cons, h1]
    rfl
  rw [h2]
  have h3 : is_valid_chain [t] = true := rfl
  rw [List.find?_cons_of_pos _ h3]
  rfl

set_option maxRecDepth 10000 in
/-- C8 counterexample: on the five tiles 01, 22, 23, 23, 12 the solver's
returned chain (built from variant 01, 12, 23, 32, 22) differs from the
first candidate passing validity in the spec's enumeration order
(lexicographic index permutations with bit-order flips, which yields
01, 12, 22, 23, 32). -/
theorem build_order_not_spec_lex_counterexample :
    DominoLinkedChain.build_if_possible
        [⟨0,1⟩, ⟨2,2⟩, ⟨2,3⟩, ⟨2,3⟩, ⟨1,2⟩] ≠
      (specLexFirstValid [⟨0,1⟩, ⟨2,2⟩, ⟨2,3⟩, ⟨2,3⟩, ⟨1,2⟩]).map
        chainOfTiles := by
  decide

/-- C8 amended: when the solver succeeds, the returned chain is the first
candidate passing validity where, within each permutation, flip combinations
are iterated in the fixed bit-order (each position unflipped before flipped,
earlier positions more significant, as `allBools` lists them) — but
permutations are enumerated in the swap-based order that
`generate_permutations` produces, which is not the lexicographic order by
original index. -/
theorem build_if_possible_first_in_code_order (tiles : List DominoTile) :
    DominoLinkedChain.build_if_possible tiles =
      (((generate_permutations tiles).flatMap
          (fun p => (allBools p.length).map (fun bs => applyFlips bs p))).find?
        is_valid_chain).map chainOfTiles := by
  rw [DominoLinkedChain.build_if_possible, firstValidVariant]
  have hfe : generate_flips =
      fun p => (allBools p.length).map (fun bs => applyFlips bs p) :=
    funext generate_flips_eq
  rw [hfe]

/-- C10: for every nonempty tile sequence appended to a fresh chain, the
first node has no backward link, the last node has no forward link, forward
traversal from `node_first` visits exactly the appended tiles in append
order (so `to_list` renders them in order), and backward traversal from
`node_last` visits them in reverse order. -/
theorem linked_chain_invariants (ts : List DominoTile) (h : ts ≠ []) :
    (∃ f nf, (chainOfTiles ts).node_first = some f ∧
      (chainOfTiles ts).nodes[f]? = some nf ∧ nf.prev_node = none) ∧
    (∃ l nl, (chainOfTiles ts).node_last = some l ∧
      (chainOfTiles ts).nodes[l]? = some nl ∧ nl.next_node = none) ∧
    (chainOfTiles ts).tiles_list = ts ∧
    (chainOfTiles ts).to_list = ts.map tileStr ∧
    (chainOfTiles ts).tiles_list_rev = ts.reverse := by
  obtain ⟨hlen, hfirst, hlast, hnodes⟩ := chainOfTiles_spec ts
  have hpos : 0 < ts.length := List.length_pos.mpr h
  refine ⟨?_, ?_, tiles_list_chainOfTiles ts, to_list_chainOfTiles ts,
    tiles_list_rev_chainOfTiles ts⟩
  · refine ⟨0, _, by rw [hfirst, if_neg (by omega)], hnodes 0 hpos, ?_⟩
    simp
  · refine ⟨ts.length - 1, _, by rw [hlast, if_neg (by omega)],
      hnodes (ts.length - 1) (by omega), ?_⟩
    simp

/-- Witness for C10 at the two-tile sequence 12, 34. -/
theorem linked_chain_invariants_witness :
    (∃ f nf, (chainOfTiles [⟨1,2⟩, ⟨3,4⟩]).node_first = some f ∧
      (chainOfTiles [⟨1,2⟩, ⟨3,4⟩]).nodes[f]? = some nf ∧
        nf.prev_node = none) ∧
    (∃ l nl, (chainOfTiles [⟨1,2⟩, ⟨3,4⟩]).node_last = some l ∧
      (chainOfTiles [⟨1,2⟩, ⟨3,4⟩]).nodes[l]? = some nl ∧
        nl.next_node = none) ∧
    (chainOfTiles [⟨1,2⟩, ⟨3,4⟩]).tiles_list = [⟨1,2⟩, ⟨3,4⟩] ∧
    (chainOfTiles [⟨1,2⟩, ⟨3,4⟩]).to_list =
      ([⟨1,2⟩, ⟨3,4⟩] : List DominoTile).map tileStr ∧
    (chainOfTiles [⟨1,2⟩, ⟨3,4⟩]).tiles_list_rev =
      ([⟨1,2⟩, ⟨3,4⟩] : List DominoTile).reverse :=
  linked_chain_invariants [⟨1,2⟩, ⟨3,4⟩] (by decide)

/-! `scratch_12.py`: its `DominoTile`, `DominoNode` and `DominoLinkedChain`
classes are textually identical to those of `ИКМ.py`, so they share the
structures above; its module-level search functions are embedded separately
below, mirroring their (identical) bodies. -/

namespace scratch_12

/-- The `permute(start)` helper of `generate_permutations` in
`scratch_12.py` (same body as in `ИКМ.py`), fuel-structured the same way. -/
def generate_permutations_aux (tiles : List DominoTile) (start : Nat) :
    Nat → List (List DominoTile)
  | 0 => [tiles]
  | fuel + 1 =>
    (List.range' start (fuel + 1)).flatMap
      (fun i => generate_permutations_aux (swapList tiles start i) (start + 1)
        fuel)

/-- `generate_permutations(tiles)` of `scratch_12.py`. -/
def generate_permutations (tiles : List DominoTile) : List (List DominoTile) :=
  generate_permutations_aux tiles 0 tiles.length

/-- The `flip(index)` helper of `generate_flips` in `scratch_12.py`. -/
def generate_flips_aux (tiles : List DominoTile) (index : Nat) :
    Nat → List (List DominoTile)
  | 0 => [tiles]
  | fuel + 1 =>
    generate_flips_aux tiles (index + 1) fuel ++
      generate_flips_aux (flipAt tiles index) (index + 1) fuel

/-- `generate_flips(tiles)` of `scratch_12.py`. -/
def generate_flips (tiles : List DominoTile) : List (List DominoTile) :=
  generate_flips_aux tiles 0 tiles.length

/-- `check_chain_valid(tiles)` of `scratch_12.py`. -/
def check_chain_valid : List DominoTile → Bool
  | [] => true
  | [_] => true
  | t₁ :: t₂ :: rest =>
      t₁.value_right == t₂.value_left && check_chain_valid (t₂ :: rest)

/-- `build_valid_chain(tiles)` of `scratch_12.py`: generate the permutations
up front, then scan each permutation's flip variants for the first valid
chain. -/
def build_valid_chain (tiles : List DominoTile) : Option DominoLinkedChain :=
  (((generate_permutations tiles).flatMap generate_flips).find?
    check_chain_valid).map chainOfTiles

end scratch_12

theorem scratch_generate_permutations_aux_eq :
    ∀ (fuel : Nat) (tiles : List DominoTile) (start : Nat),
      scratch_12.generate_permutations_aux tiles start fuel =
        generate_permutations_aux tiles start fuel := by
  intro fuel
  induction fuel with
  | zero => intro tiles start; rfl
  | succ fuel ih =>
    intro tiles start
    show (List.range' start (fuel + 1)).flatMap _ =
      (List.range' start (fuel + 1)).flatMap _
    congr 1
    funext i
    exact ih (swapList tiles start i) (start + 1)

theorem scratch_generate_flips_aux_eq :
    ∀ (fuel : Nat) (tiles : List DominoTile) (index : Nat),
      scratch_12.generate_flips_aux tiles index fuel =
        generate_flips_aux tiles index fuel := by
  intro fuel
  induction fuel with
  | zero => intro tiles index; rfl
  | succ fuel ih =>
    intro tiles index
    show scratch_12.generate_flips_aux tiles (index + 1) fuel ++ _ = _
    rw [ih tiles (index + 1), ih (flipAt tiles index) (index + 1)]
    rfl

theorem scratch_check_chain_valid_eq (l : List DominoTile) :
    scratch_12.check_chain_valid l = is_valid_chain l := by
  induction l with
  | nil => rfl
  | cons t ts ih =>
    cases ts with
    | nil => rfl
    | cons t2 rest =>
      rw [scratch_12.check_chain_valid, is_valid_chain, ih]

/-- C9: the two solver implementations agree on every input: either both
return `None`, or both return chains with the same `to_list` rendering
(in fact the same chain). -/
theorem build_implementations_equivalent (tiles : List DominoTile) :
    (scratch_12.build_valid_chain tiles).map DominoLinkedChain.to_list =
      (DominoLinkedChain.build_if_possible tiles).map
        DominoLinkedChain.to_list := by
  have h : scratch_12.build_valid_chain tiles =
      DominoLinkedChain.build_if_possible tiles := by
    rw [scratch_12.build_valid_chain, DominoLinkedChain.build_if_possible,
      firstValidVariant, scratch_12.generate_permutations,
      generate_permutations, scratch_generate_permutations_aux_eq]
    have hf : scratch_12.generate_flips = generate_flips := by
      funext ts
      rw [scratch_12.generate_flips, generate_flips,
        scratch_generate_flips_aux_eq]
    have hc : scratch_12.check_chain_valid = is_valid_chain :=
      funext scratch_check_chain_valid_eq
    rw [hf, hc]
  rw [h]

/-! The external validation layer of `main`: per-token checks (exactly two
digit characters, each digit at most 6) and the add-option round. -/

/-- `int(ch)` for a digit character, as Python's `int` on one digit. -/
def charDigit (c : Char) : Nat := c.toNat - 48

/-- The two user-visible violation classes of the validation layer. -/
inductive TokenError where
  | format
  | range
deriving DecidableEq, Repr

/-- The per-token validation of `main` (`len(part) != 2 or not
part.isdigit()` reports the two-digit-format violation, then `a > 6 or
b > 6` reports the range violation, else the token yields `DominoTile(a, b)`).
Python's `isdigit` is modelled on ASCII digits. -/
def tokenCheck (p : String) : Except TokenError DominoTile :=
  match p.data with
  | [c1, c2] =>
    if c1.isDigit && c2.isDigit then
      if charDigit c1 > 6 || charDigit c2 > 6 then Except.error TokenError.range
      else Except.ok { value_left := charDigit c1, value_right := charDigit c2 }
    else Except.error TokenError.format
  | _ => Except.error TokenError.format

/-- The validation layer's digit parsing as a partial function: the tile a
well-formed token denotes, `none` on any violation. -/
def parseToken (p : String) : Option DominoTile :=
  (tokenCheck p).toOption

/-- The token loop of `main`: the first offending token decides the error
(the loop breaks there); otherwise all the tiles in order. -/
def readTiles : List String → Except TokenError (List DominoTile)
  | [] => Except.ok []
  | p :: ps =>
    match tokenCheck p with
    | Except.error e => Except.error e
    | Except.ok t => (readTiles ps).map (fun ts => t :: ts)

theorem parseToken_tileStr (t : DominoTile) (hl : t.value_left ≤ 6)
    (hr : t.value_right ≤ 6) : parseToken (tileStr t) = some t := by
  obtain ⟨l, r⟩ := t
  simp only at hl hr
  interval_cases l <;> interval_cases r <;> decide

theorem filterMap_some_of {α : Type _} (l : List α) (f : α → Option α)
    (h : ∀ a ∈ l, f a = some a) : l.filterMap f = l := by
  induction l with
  | nil => rfl
  | cons a t ih =>
    rw [List.filterMap_cons, h a (List.mem_cons_self a t),
      ih (fun b hb => h b (List.mem_cons_of_mem a hb))]

theorem normPair_eq_bounds (t t' : DominoTile)
    (he : t.normPair = t'.normPair)
    (hb : t.value_left ≤ 6 ∧ t.value_right ≤ 6) :
    t'.value_left ≤ 6 ∧ t'.value_right ≤ 6 := by
  unfold DominoTile.normPair at he
  obtain ⟨h1, h2⟩ := hb
  split_ifs at he <;> simp [Prod.ext_iff] at he <;> omega

/-- C6: rendering each tile of a solved chain through `DominoTile.__str__`
and re-parsing the strings through the validation layer's digit parsing
yields tiles whose multiset of unordered value pairs equals the input's. -/
theorem round_trip_reparse (tiles : List DominoTile) (c : DominoLinkedChain)
    (hv : ∀ t ∈ tiles, t.value_left ≤ 6 ∧ t.value_right ≤ 6)
    (h : DominoLinkedChain.build_if_possible tiles = some c) :
    List.Perm ((c.to_list.filterMap parseToken).map DominoTile.normPair)
      (tiles.map DominoTile.normPair) := by
  rw [DominoLinkedChain.build_if_possible] at h
  obtain ⟨v, hvv, rfl⟩ := Option.map_eq_some'.mp h
  rw [firstValidVariant] at hvv
  have hmem : v ∈ (generate_permutations tiles).flatMap generate_flips :=
    List.mem_of_find?_eq_some hvv
  rw [List.mem_flatMap] at hmem
  obtain ⟨p, hp, hvp⟩ := hmem
  rw [mem_generate_permutations] at hp
  rw [mem_generate_flips] at hvp
  obtain ⟨bs, hbs, rfl⟩ := hvp
  have hnp : (applyFlips bs p).map DominoTile.normPair =
      p.map DominoTile.normPair := applyFlips_map_normPair bs p hbs
  have hperm : List.Perm ((applyFlips bs p).map DominoTile.normPair)
      (tiles.map DominoTile.normPair) := by
    rw [hnp]
    exact hp.map _
  have hbounds : ∀ t' ∈ applyFlips bs p,
      t'.value_left ≤ 6 ∧ t'.value_right ≤ 6 := by
    intro t' ht'
    have h1 : t'.normPair ∈ (applyFlips bs p).map DominoTile.normPair :=
      List.mem_map_of_mem _ ht'
    have h2 : t'.normPair ∈ tiles.map DominoTile.normPair :=
      hperm.mem_iff.mp h1
    obtain ⟨t, ht, he⟩ := List.mem_map.mp h2
    exact normPair_eq_bounds t t' he (hv t ht)
  rw [DominoLinkedChain.to_list, tiles_list_chainOfTiles,
    List.filterMap_map]
  have hid : (applyFlips bs p).filterMap (parseToken ∘ tileStr) =
      applyFlips bs p := by
    apply filterMap_some_of
    intro t' ht'
    have hb := hbounds t' ht'
    exact parseToken_tileStr t' hb.1 hb.2
  rw [hid]
  exact hperm

/-- Witness for C6 at the concrete input 02, 04, 42. -/
theorem round_trip_reparse_witness :
    List.Perm
      ((((chainOfTiles [⟨2,0⟩, ⟨0,4⟩, ⟨4,2⟩]).to_list.filterMap
        parseToken).map DominoTile.normPair))
      (([⟨0,2⟩, ⟨0,4⟩, ⟨4,2⟩] : List DominoTile).map DominoTile.normPair) :=
  round_trip_reparse [⟨0,2⟩, ⟨0,4⟩, ⟨4,2⟩]
    (chainOfTiles [⟨2,0⟩, ⟨0,4⟩, ⟨4,2⟩]) (by decide) (by decide)

/-- Python's `input_str.split(",")`: cut the character list at every comma
(no merging of adjacent separators). -/
def pySplitAux (sep : Char) : List Char → List (List Char)
  | [] => [[]]
  | c :: cs =>
    if c = sep then [] :: pySplitAux sep cs
    else
      match pySplitAux sep cs with
      | [] => [[c]]
      | g :: gs => (c :: g) :: gs

/-- Python's `s.strip()`: drop leading and trailing whitespace. -/
def pyStrip (cs : List Char) : List Char :=
  ((cs.dropWhile Char.isWhitespace).reverse.dropWhile Char.isWhitespace).reverse

/-- `[s.strip() for s in input_str.split(",")]`. -/
def splitParts (input_str : String) : List String :=
  (pySplitAux ',' input_str.data).map (fun g => String.mk (pyStrip g))

/-- The observable outcome of one round of `main`'s option 1 body. -/
inductive AddOutcome where
  | emptyInput
  | formatError
  | rangeError
  | solved (chain : DominoLinkedChain)
  | unsolvable
deriving DecidableEq, Repr

/-- One round of `main`'s "add a tile list" body (option "1"), taking the
already-read-and-stripped input line and the `all_inputs` history: empty
input and token violations are reported without invoking the solver and
without touching the history; a fully well-formed token list is appended to
the history and handed to the solver, whose `None` answer is the
"cannot be arranged" outcome. -/
def processAdd (input_str : String) (all_inputs : List String) :
    AddOutcome × List String :=
  if input_str = "" then (AddOutcome.emptyInput, all_inputs)
  else
    match readTiles (splitParts input_str) with
    | Except.error TokenError.format => (AddOutcome.formatError, all_inputs)
    | Except.error TokenError.range => (AddOutcome.rangeError, all_inputs)
    | Except.ok tiles =>
      match DominoLinkedChain.build_if_possible tiles with
      | some chain => (AddOutcome.solved chain, all_inputs ++ [input_str])
      | none => (AddOutcome.unsolvable, all_inputs ++ [input_str])

/-- Spec-side: a well-formed token — exactly two digit characters, each with
value at most 6. -/
def tokenOk (p : String) : Prop :=
  (p.data.length = 2 ∧ ∀ c ∈ p.data, c.isDigit = true) ∧
    ∀ c ∈ p.data, charDigit c ≤ 6

/-- Spec-side: a two-digit-format violation — the token is not exactly two
digit characters. -/
def isFormatViolation (p : String) : Prop :=
  ¬ (p.data.length = 2 ∧ ∀ c ∈ p.data, c.isDigit = true)

instance tokenOk_decidable (p : String) : Decidable (tokenOk p) := by
  unfold tokenOk
  infer_instance

instance isFormatViolation_decidable (p : String) :
    Decidable (isFormatViolation p) := by
  unfold isFormatViolation
  infer_instance

theorem tokenCheck_ok_iff (p : String) :
    (∃ t, tokenCheck p = Except.ok t) ↔ tokenOk p := by
  rcases hd : p.data with _ | ⟨c1, _ | ⟨c2, _ | ⟨c3, cs⟩⟩⟩ <;>
    simp only [tokenCheck, tokenOk, hd]
  · constructor
    · rintro ⟨t, ht⟩
      exact absurd ht (by simp)
    · rintro ⟨⟨hlen, _⟩, _⟩
      simp at hlen
  · constructor
    · rintro ⟨t, ht⟩
      exact absurd ht (by simp)
    · rintro ⟨⟨hlen, _⟩, _⟩
      simp at hlen
  · by_cases hdig : (c1.isDigit && c2.isDigit) = true
    · rw [if_pos hdig]
      rw [Bool.and_eq_true] at hdig
      by_cases hrange : (decide (charDigit c1 > 6) || decide (charDigit c2 > 6))
          = true
      · rw [if_pos hrange]
        rw [Bool.or_eq_true] at hrange
        simp only [decide_eq_true_eq] at hrange
        constructor
        · rintro ⟨t, ht⟩
          exact absurd ht (by simp)
        · rintro ⟨-, hle⟩
          have h1 := hle c1 (by simp)
          have h2 := hle c2 (by simp)
          omega
      · rw [if_neg hrange]
        rw [Bool.or_eq_true] at hrange
        simp only [decide_eq_true_eq] at hrange
        push_neg at hrange
        constructor
        · intro _
          refine ⟨⟨rfl, ?_⟩, ?_⟩
          · intro c hc
            rcases (by simpa using hc : c = c1 ∨ c = c2) with rfl | rfl
            · exact hdig.1
            · exact hdig.2
          · intro c hc
            rcases (by simpa using hc : c = c1 ∨ c = c2) with rfl | rfl
            · omega
            · omega
        · intro _
          exact ⟨_, rfl⟩
    · rw [if_neg hdig]
      rw [Bool.and_eq_true] at hdig
      constructor
      · rintro ⟨t, ht⟩
        exact absurd ht (by simp)
      · rintro ⟨⟨-, hdig2⟩, -⟩
        exact absurd ⟨hdig2 c1 (by simp), hdig2 c2 (by simp)⟩ hdig
  · constructor
    · rintro ⟨t, ht⟩
      exact absurd ht (by simp)
    · rintro ⟨⟨hlen, _⟩, _⟩
      simp at hlen

theorem tokenCheck_format_iff (p : String) :
    tokenCheck p = Except.error TokenError.format ↔ isFormatViolation p := by
  rcases hd : p.data with _ | ⟨c1, _ | ⟨c2, _ | ⟨c3, cs⟩⟩⟩ <;>
    simp only [tokenCheck, isFormatViolation, hd]
  · constructor
    · rintro - ⟨hlen, -⟩
      simp at hlen
    · intro _
      trivial
  · constructor
    · rintro - ⟨hlen, -⟩
      simp at hlen
    · intro _
      trivial
  · by_cases hdig : (c1.isDigit && c2.isDigit) = true
    · rw [if_pos hdig]
      rw [Bool.and_eq_true] at hdig
      constructor
      · intro h
        by_cases hrange : (decide (charDigit c1 > 6) ||
            decide (charDigit c2 > 6)) = true
        · rw [if_pos hrange] at h
          exact absurd h (by simp)
        · rw [if_neg hrange] at h
          exact absurd h (by simp)
      · intro hfv
        refine absurd ⟨rfl, ?_⟩ hfv
        intro c hc
        rcases (by simpa using hc : c = c1 ∨ c = c2) with rfl | rfl
        · exact hdig.1
        · exact hdig.2
    · rw [if_neg hdig]
      rw [Bool.and_eq_true] at hdig
      constructor
      · rintro - ⟨-, hd2⟩
        exact hdig ⟨hd2 c1 (by simp), hd2 c2 (by simp)⟩
      · intro _
        trivial
  · constructor
    · rintro - ⟨hlen, -⟩
      simp at hlen
    · intro _
      trivial

theorem tokenCheck_range_iff (p : String) :
    tokenCheck p = Except.error TokenError.range ↔
      ¬ isFormatViolation p ∧ ¬ tokenOk p := by
  cases h : tokenCheck p with
  | ok t =>
    constructor
    · intro he
      exact absurd he (by simp)
    · rintro ⟨-, hnok⟩
      exact absurd ((tokenCheck_ok_iff p).mp ⟨t, h⟩) hnok
  | error e =>
    cases e with
    | format =>
      constructor
      · intro he
        exact absurd he (by simp)
      · rintro ⟨hnf, -⟩
        exact absurd ((tokenCheck_format_iff p).mp h) hnf
    | range =>
      constructor
      · intro _
        refine ⟨?_, ?_⟩
        · intro hfv
          have h2 := (tokenCheck_format_iff p).mpr hfv
          rw [h] at h2
          exact absurd h2 (by simp)
        · intro hok
          obtain ⟨t, ht⟩ := (tokenCheck_ok_iff p).mpr hok
          rw [h] at ht
          exact absurd ht (by simp)
      · intro _
        rfl

theorem readTiles_ok (parts : List String) (h : ∀ p ∈ parts, tokenOk p) :
    readTiles parts = Except.ok (parts.filterMap parseToken) := by
  induction parts with
  | nil => rfl
  | cons p ps ih =>
    obtain ⟨t, ht⟩ := (tokenCheck_ok_iff p).mpr (h p (List.mem_cons_self p ps))
    have hpt : parseToken p = some t := by
      rw [parseToken, ht]
      rfl
    rw [readTiles, ht, ih (fun q hq => h q (List.mem_cons_of_mem p hq)),
      List.filterMap_cons, hpt]
    rfl

theorem readTiles_append_err (good : List String) (bad : String)
    (rest : List String) (hg : ∀ p ∈ good, tokenOk p) (e : TokenError)
    (hbe : tokenCheck bad = Except.error e) :
    readTiles (good ++ bad :: rest) = Except.error e := by
  induction good with
  | nil =>
    rw [List.nil_append, readTiles, hbe]
  | cons p ps ih =>
    obtain ⟨t, ht⟩ := (tokenCheck_ok_iff p).mpr (hg p (List.mem_cons_self p ps))
    rw [List.cons_append, readTiles, ht,
      ih (fun q hq => hg q (List.mem_cons_of_mem p hq))]
    rfl

theorem processAdd_error (s : String) (hist : List String) (hs : ¬ (s = ""))
    (e : TokenError) (h : readTiles (splitParts s) = Except.error e) :
    processAdd s hist =
      ((match e with
        | TokenError.format => AddOutcome.formatError
        | TokenError.range => AddOutcome.rangeError), hist) := by
  cases e <;> simp only [processAdd, if_neg hs, h]

theorem processAdd_ok (s : String) (hist : List String) (hs : ¬ (s = ""))
    (tiles : List DominoTile)
    (h : readTiles (splitParts s) = Except.ok tiles) :
    processAdd s hist =
      ((match DominoLinkedChain.build_if_possible tiles with
        | some chain => AddOutcome.solved chain
        | none => AddOutcome.unsolvable), hist ++ [s]) := by
  simp only [processAdd, if_neg hs, h]
  cases hb : DominoLinkedChain.build_if_possible tiles <;> rfl

/-- C7: for every nonempty entered line at the add option, with its
comma-split, stripped tokens: if the first offending token violates the
two-digit format, the outcome is the format message, and otherwise (its
digits out of range) the range message — in both cases the solver outcome
never occurs and the raw input is not recorded in history; if every token
is well-formed, the raw input is recorded in history and the solver is
invoked, with its `None` answer reported as the unsolvable outcome. -/
theorem process_add_validation (s : String) (hist : List String)
    (hs : ¬ (s = "")) :
    (∀ good bad rest,
      splitParts s = good ++ bad :: rest →
      (∀ p ∈ good, tokenOk p) → ¬ tokenOk bad →
      ((isFormatViolation bad →
          processAdd s hist = (AddOutcome.formatError, hist)) ∧
        (¬ isFormatViolation bad →
          processAdd s hist = (AddOutcome.rangeError, hist)))) ∧
    ((∀ p ∈ splitParts s, tokenOk p) →
      processAdd s hist =
        ((match DominoLinkedChain.build_if_possible
            ((splitParts s).filterMap parseToken) with
          | some chain => AddOutcome.solved chain
          | none => AddOutcome.unsolvable),
          hist ++ [s])) := by
  refine ⟨?_, ?_⟩
  · intro good bad rest heq hg hb
    refine ⟨?_, ?_⟩
    · intro hfv
      have hbe : tokenCheck bad = Except.error TokenError.format :=
        (tokenCheck_format_iff bad).mpr hfv
      have hre := readTiles_append_err good bad rest hg TokenError.format hbe
      rw [← heq] at hre
      exact processAdd_error s hist hs TokenError.format hre
    · intro hnf
      have hbe : tokenCheck bad = Except.error TokenError.range :=
        (tokenCheck_range_iff bad).mpr ⟨hnf, hb⟩
      have hre := readTiles_append_err good bad rest hg TokenError.range hbe
      rw [← heq] at hre
      exact processAdd_error s hist hs TokenError.range hre
  · intro hall
    exact processAdd_ok s hist hs _ (readTiles_ok (splitParts s) hall)

/-- Witness for C7: the well-formed line "02, 04, 42" is recorded in
history and solved. -/
theorem process_add_validation_witness :
    processAdd "02, 04, 42" [] =
      (AddOutcome.solved (chainOfTiles [⟨2,0⟩, ⟨0,4⟩, ⟨4,2⟩]),
        ["02, 04, 42"]) := by
  have h := (process_add_validation "02, 04, 42" [] (by decide)).2 (by decide)
  rw [h]
  decide

/-! For the frame claim (no mutation of the caller's tiles, no sharing in
the returned chain) the solver is modelled with object identity made
explicit: a heap maps tile ids to their value pairs, Python lists of tile
objects become lists of ids, `flip` becomes a heap update at an id,
`clone` allocates a fresh id, and V swaps of list elements stay list
operations on ids.  The recursion mirrors `build_if_possible` exactly,
state-passed. -/

/-- Tile store: entry `id` holds that tile object's
`(value_left, value_right)`. -/
abbrev Heap := List (Nat × Nat)

/-- `tile.clone()`: allocate a fresh object with the same values. -/
def cloneTile (h : Heap) (id : Nat) : Nat × Heap :=
  (h.length, h ++ [h.getD id (0, 0)])

/-- `[tile.clone() for tile in tiles]`. -/
def cloneAll (h : Heap) : List Nat → List Nat × Heap
  | [] => ([], h)
  | id :: ids =>
    let (nid, h1) := cloneTile h id
    let (nids, h2) := cloneAll h1 ids
    (nid :: nids, h2)

/-- `tile.flip()`: swap the two values of the object at `id`, in place. -/
def flipTile (h : Heap) (id : Nat) : Heap :=
  match h[id]? with
  | some (a, b) => h.set id (b, a)
  | none => h

/-- The `for i in range(start, len(tiles))` loop of `permute`, with the
one-level-deeper recursion passed in as `f`: swap positions `start` and
`i`, recurse, swap back on the returned list. -/
def permLoopS (f : List Nat → Heap → List (List Nat) × List Nat × Heap)
    (start : Nat) : List Nat → List Nat → Heap →
    List (List Nat) × List Nat × Heap
  | [], ids, h => ([], ids, h)
  | i :: rest, ids, h =>
    let ids1 := swapList ids start i
    let (res1, ids2, h1) := f ids1 h
    let ids3 := swapList ids2 start i
    let (res2, ids4, h2) := permLoopS f start rest ids3 h1
    (res1 ++ res2, ids4, h2)

/-- The `permute(start)` recursion with the caller's list and the heap
threaded through: at depth 0 the current arrangement is cloned and
recorded; otherwise the loop runs over `range(start, len(tiles))`
(the fuel is `len(tiles) - start`, the Python recursion depth). -/
def permuteS : Nat → Nat → List Nat → Heap →
    List (List Nat) × List Nat × Heap
  | 0, _start, ids, h =>
    let (c, h1) := cloneAll h ids
    ([c], ids, h1)
  | fuel + 1, start, ids, h =>
    permLoopS (fun ids' h' => permuteS fuel (start + 1) ids' h') start
      (List.range' start (fuel + 1)) ids h

/-- `generate_permutations(tiles)` with state. -/
def generate_permutationsS (ids : List Nat) (h : Heap) :
    List (List Nat) × List Nat × Heap :=
  permuteS ids.length 0 ids h

/-- The `flip(index)` recursion with the heap threaded through: recurse
with the tile unflipped, flip it in place, recurse again, flip it back. -/
def flipS : Nat → Nat → List Nat → Heap → List (List Nat) × Heap
  | 0, _index, ids, h =>
    let (c, h1) := cloneAll h ids
    ([c], h1)
  | fuel + 1, index, ids, h =>
    let (r1, h1) := flipS fuel (index + 1) ids h
    let h2 := flipTile h1 (ids.getD index 0)
    let (r2, h3) := flipS fuel (index + 1) ids h2
    let h4 := flipTile h3 (ids.getD index 0)
    (r1 ++ r2, h4)

/-- `generate_flips(tiles)` with state. -/
def generate_flipsS (ids : List Nat) (h : Heap) : List (List Nat) × Heap :=
  flipS ids.length 0 ids h

/-- `is_valid_chain` reading the tile values through the heap. -/
def is_valid_chainH (h : Heap) : List Nat → Bool
  | [] => true
  | [_] => true
  | id1 :: id2 :: rest =>
      ((h.getD id1 (0, 0)).2 == (h.getD id2 (0, 0)).1) &&
        is_valid_chainH h (id2 :: rest)

/-- The double loop of `build_if_possible` over the materialised
permutations: generate the flip variants of each and return at the first
valid one (the heap state at that moment is the final state). -/
def buildLoopS : List (List Nat) → Heap → Option (List Nat) × Heap
  | [], h => (none, h)
  | p :: rest, h =>
    let (vs, h1) := generate_flipsS p h
    match vs.find? (fun v => is_valid_chainH h1 v) with
    | some v => (some v, h1)
    | none => buildLoopS rest h1

/-- `build_if_possible(tiles)` with state: returns the found variant (the
ids the chain would hold), the caller's list after the call, and the final
heap. -/
def build_if_possibleS (ids : List Nat) (h : Heap) :
    Option (List Nat) × List Nat × Heap :=
  let (perms, ids1, h1) := generate_permutationsS ids h
  let (res, h2) := buildLoopS perms h1
  (res, ids1, h2)

/-! Frame lemmas for the stateful model: the caller's list of tile objects
is restored, the caller-visible heap entries are unchanged, and every id in
a recorded arrangement is freshly allocated. -/

theorem set_getElem_self_eq (l : List α) (i : Nat) (h : i < l.length) :
    l.set i (l[i]) = l := by
  apply List.ext_getElem?
  intro k
  by_cases hk : i = k
  · subst hk
    rw [List.getElem?_set_self h, List.getElem?_eq_getElem h]
  · rw [List.getElem?_set_ne hk]

theorem swapList_oob (l : List α) (i j : Nat)
    (h : ¬ (i < l.length ∧ j < l.length)) : swapList l i j = l := by
  unfold swapList
  split
  next a b ha hb =>
    obtain ⟨hi, -⟩ := List.getElem?_eq_some_iff.mp ha
    obtain ⟨hj, -⟩ := List.getElem?_eq_some_iff.mp hb
    exact absurd ⟨hi, hj⟩ h
  next => rfl

theorem swapList_getElem?_char (l : List α) (i j k : Nat) (hi : i < l.length)
    (hj : j < l.length) :
    (swapList l i j)[k]? =
      if k = j then l[i]? else if k = i then l[j]? else l[k]? := by
  have hsw : swapList l i j = (l.set i (l[j])).set j (l[i]) := by
    unfold swapList
    rw [List.getElem?_eq_getElem hi, List.getElem?_eq_getElem hj]
  rw [hsw]
  by_cases hkj : k = j
  · subst hkj
    rw [if_pos rfl, List.getElem?_set_self (by simpa using hj),
      List.getElem?_eq_getElem hi]
  · rw [if_neg hkj, List.getElem?_set_ne (fun hc => hkj hc.symm)]
    by_cases hki : k = i
    · subst hki
      rw [if_pos rfl, List.getElem?_set_self hi,
        List.getElem?_eq_getElem hj]
    · rw [if_neg hki, List.getElem?_set_ne (fun hc => hki hc.symm)]

theorem swapList_involutive (l : List α) (i j : Nat) :
    swapList (swapList l i j) i j = l := by
  by_cases hb : i < l.length ∧ j < l.length
  · obtain ⟨hi, hj⟩ := hb
    have hlen : (swapList l i j).length = l.length := swapList_length l i j
    apply List.ext_getElem?
    intro k
    rw [swapList_getElem?_char (swapList l i j) i j k (by omega) (by omega),
      swapList_getElem?_char l i j i hi hj,
      swapList_getElem?_char l i j j hi hj,
      swapList_getElem?_char l i j k hi hj]
    by_cases hkj : k = j
    · rw [if_pos hkj]
      by_cases hij : i = j
      · rw [if_pos hij, hij, ← hkj]
      · rw [if_neg hij, if_pos rfl, ← hkj]
    · rw [if_neg hkj]
      by_cases hki : k = i
      · rw [if_pos hki, if_pos rfl, ← hki]
      · rw [if_neg hki, if_neg hkj, if_neg hki]
  · rw [swapList_oob l i j hb, swapList_oob l i j hb]

theorem cloneAll_spec :
    ∀ (ids : List Nat) (h : Heap) (cids : List Nat) (h' : Heap),
      cloneAll h ids = (cids, h') →
      h.length ≤ h'.length ∧ (∀ i, i < h.length → h'[i]? = h[i]?) ∧
        ∀ cid ∈ cids, h.length ≤ cid := by
  intro ids
  induction ids with
  | nil =>
    intro h cids h' he
    simp only [cloneAll, Prod.mk.injEq] at he
    obtain ⟨rfl, rfl⟩ := he
    exact ⟨Nat.le_refl _, fun i _ => rfl, by simp⟩
  | cons id ids ih =>
    intro h cids h' he
    rcases hc : cloneAll (h ++ [h.getD id (0, 0)]) ids with ⟨nids, h2⟩
    simp only [cloneAll, cloneTile, hc, Prod.mk.injEq] at he
    obtain ⟨rfl, rfl⟩ := he
    obtain ⟨hlen, hagree, hfresh⟩ := ih (h ++ [h.getD id (0, 0)]) nids h2 hc
    have hlen1 : (h ++ [h.getD id (0, 0)]).length = h.length + 1 := by simp
    refine ⟨by omega, ?_, ?_⟩
    · intro i hi
      rw [hagree i (by omega), List.getElem?_append_left hi]
    · intro cid hcid
      rcases List.mem_cons.mp hcid with rfl | hm
      · exact Nat.le_refl _
      · have := hfresh cid hm
        omega

@[simp] theorem flipTile_length (h : Heap) (id : Nat) :
    (flipTile h id).length = h.length := by
  unfold flipTile
  split
  · simp
  · rfl

theorem flipTile_getElem?_ne (h : Heap) (id k : Nat) (hk : k ≠ id) :
    (flipTile h id)[k]? = h[k]? := by
  unfold flipTile
  split
  · exact List.getElem?_set_ne (fun hc => hk hc.symm)
  · rfl

theorem flipTile_of_some (h : Heap) (id a b : Nat)
    (hv : h[id]? = some (a, b)) : flipTile h id = h.set id (b, a) := by
  unfold flipTile
  rw [hv]

theorem flipS_spec :
    ∀ (fuel index : Nat) (ids : List Nat) (h : Heap) (res : List (List Nat))
      (h' : Heap), flipS fuel index ids h = (res, h') →
      h.length ≤ h'.length ∧ (∀ i, i < h.length → h'[i]? = h[i]?) ∧
        ∀ v ∈ res, ∀ cid ∈ v, h.length ≤ cid := by
  intro fuel
  induction fuel with
  | zero =>
    intro index ids h res h' he
    rcases hc : cloneAll h ids with ⟨c, h1⟩
    simp only [flipS, hc, Prod.mk.injEq] at he
    obtain ⟨rfl, rfl⟩ := he
    obtain ⟨hlen, hagree, hfresh⟩ := cloneAll_spec ids h c h1 hc
    refine ⟨hlen, hagree, ?_⟩
    intro v hv cid hcid
    rw [List.mem_singleton] at hv
    subst hv
    exact hfresh cid hcid
  | succ fuel ih =>
    intro index ids h res h' he
    rcases h1e : flipS fuel (index + 1) ids h with ⟨r1, h1⟩
    rcases h3e : flipS fuel (index + 1) ids (flipTile h1 (ids.getD index 0))
      with ⟨r2, h3⟩
    simp only [flipS, h1e, h3e, Prod.mk.injEq] at he
    obtain ⟨rfl, rfl⟩ := he
    obtain ⟨hl1, ha1, hf1⟩ := ih (index + 1) ids h r1 h1 h1e
    obtain ⟨hl3, ha3, hf3⟩ := ih (index + 1) ids (flipTile h1 (ids.getD index 0))
      r2 h3 h3e
    set id := ids.getD index 0 with hid
    have hl2 : (flipTile h1 id).length = h1.length := flipTile_length h1 id
    refine ⟨by simp only [flipTile_length]; omega, ?_, ?_⟩
    · intro i hi
      by_cases hii : i = id
      · have hiv : i < h1.length := by omega
        rcases hpr : h1[i]? with _ | ⟨a, b⟩
        · rw [List.getElem?_eq_none_iff] at hpr
          omega
        · have h2v : (flipTile h1 id)[i]? = some (b, a) := by
            rw [hii] at hpr ⊢
            rw [flipTile_of_some h1 id a b hpr]
            exact List.getElem?_set_self (by omega)
          have h3v : h3[i]? = some (b, a) := by
            rw [ha3 i (by omega), h2v]
          have h4v : (flipTile h3 id)[i]? = some (a, b) := by
            rw [hii] at h3v ⊢
            rw [flipTile_of_some h3 id b a h3v]
            exact List.getElem?_set_self (by omega)
          rw [h4v, ← ha1 i hi, hpr]
      · rw [flipTile_getElem?_ne h3 id i hii, ha3 i (by omega),
          flipTile_getElem?_ne h1 id i hii, ha1 i hi]
    · intro v hv cid hcid
      rcases List.mem_append.mp hv with hm | hm
      · exact hf1 v hm cid hcid
      · have := hf3 v hm cid hcid
        rw [hl2] at this
        omega

theorem permLoopS_spec (f : List Nat → Heap → List (List Nat) × List Nat × Heap)
    (hf : ∀ (ids : List Nat) (h : Heap) (res : List (List Nat))
      (ids' : List Nat) (h' : Heap), f ids h = (res, ids', h') →
      ids' = ids ∧ h.length ≤ h'.length ∧
        (∀ i, i < h.length → h'[i]? = h[i]?) ∧
        ∀ v ∈ res, ∀ cid ∈ v, h.length ≤ cid) :
    ∀ (idxs : List Nat) (start : Nat) (ids : List Nat) (h : Heap)
      (res : List (List Nat)) (ids' : List Nat) (h' : Heap),
      permLoopS f start idxs ids h = (res, ids', h') →
      ids' = ids ∧ h.length ≤ h'.length ∧
        (∀ i, i < h.length → h'[i]? = h[i]?) ∧
        ∀ v ∈ res, ∀ cid ∈ v, h.length ≤ cid := by
  intro idxs
  induction idxs with
  | nil =>
    intro start ids h res ids' h' he
    simp only [permLoopS, Prod.mk.injEq] at he
    obtain ⟨rfl, rfl, rfl⟩ := he
    exact ⟨rfl, Nat.le_refl _, fun i _ => rfl, by simp⟩
  | cons i rest ih =>
    intro start ids h res ids' h' he
    rcases h1e : f (swapList ids start i) h with ⟨res1, ids2, h1⟩
    rcases h2e : permLoopS f start rest (swapList ids2 start i) h1
      with ⟨res2, ids4, h2⟩
    simp only [permLoopS, h1e, h2e, Prod.mk.injEq] at he
    obtain ⟨rfl, rfl, rfl⟩ := he
    obtain ⟨hids2, hl1, ha1, hf1⟩ := hf (swapList ids start i) h res1 ids2 h1 h1e
    have hids3 : swapList ids2 start i = ids := by
      rw [hids2, swapList_involutive]
    rw [hids3] at h2e
    obtain ⟨hids4, hl2, ha2, hf2⟩ := ih start ids h1 res2 ids4 h2 h2e
    refine ⟨hids4, by omega, ?_, ?_⟩
    · intro k hk
      rw [ha2 k (by omega), ha1 k hk]
    · intro v hv cid hcid
      rcases List.mem_append.mp hv with hm | hm
      · exact hf1 v hm cid hcid
      · have := hf2 v hm cid hcid
        omega

theorem permuteS_spec : ∀ (fuel start : Nat) (ids : List Nat) (h : Heap)
    (res : List (List Nat)) (ids' : List Nat) (h' : Heap),
    permuteS fuel start ids h = (res, ids', h') →
    ids' = ids ∧ h.length ≤ h'.length ∧
      (∀ i, i < h.length → h'[i]? = h[i]?) ∧
      ∀ v ∈ res, ∀ cid ∈ v, h.length ≤ cid := by
  intro fuel
  induction fuel with
  | zero =>
    intro start ids h res ids' h' he
    rcases hc : cloneAll h ids with ⟨c, h1⟩
    simp only [permuteS, hc, Prod.mk.injEq] at he
    obtain ⟨rfl, rfl, rfl⟩ := he
    obtain ⟨hlen, hagree, hfresh⟩ := cloneAll_spec ids h c h1 hc
    refine ⟨rfl, hlen, hagree, ?_⟩
    intro v hv cid hcid
    rw [List.mem_singleton] at hv
    subst hv
    exact hfresh cid hcid
  | succ fuel ih =>
    intro start ids h res ids' h' he
    simp only [permuteS] at he
    exact permLoopS_spec (fun a b => permuteS fuel (start + 1) a b)
      (fun ids2 h2 res2 ids2' h2' he2 => ih (start + 1) ids2 h2 res2 ids2' h2' he2)
      (List.range' start (fuel + 1)) start ids h res ids' h' he

theorem buildLoopS_spec : ∀ (perms : List (List Nat)) (h : Heap)
    (res : Option (List Nat)) (h' : Heap), buildLoopS perms h = (res, h') →
    h.length ≤ h'.length ∧ (∀ i, i < h.length → h'[i]? = h[i]?) ∧
      ∀ v, res = some v → ∀ cid ∈ v, h.length ≤ cid := by
  intro perms
  induction perms with
  | nil =>
    intro h res h' he
    simp only [buildLoopS, Prod.mk.injEq] at he
    obtain ⟨rfl, rfl⟩ := he
    exact ⟨Nat.le_refl _, fun i _ => rfl, fun v hv => Option.noConfusion hv⟩
  | cons p rest ih =>
    intro h res h' he
    rcases hg : generate_flipsS p h with ⟨vs, h1⟩
    simp only [buildLoopS, hg] at he
    obtain ⟨hl1, ha1, hf1⟩ := flipS_spec p.length 0 p h vs h1 hg
    cases hfind : vs.find? (fun v => is_valid_chainH h1 v) with
    | some v =>
      simp only [hfind, Prod.mk.injEq] at he
      obtain ⟨rfl, rfl⟩ := he
      refine ⟨hl1, ha1, ?_⟩
      intro w hw cid hcid
      have hvw : w = v := (Option.some.inj hw).symm
      rw [hvw] at hcid
      exact hf1 v (List.mem_of_find?_eq_some hfind) cid hcid
    | none =>
      simp only [hfind] at he
      obtain ⟨hl2, ha2, hf2⟩ := ih h1 res h' he
      refine ⟨by omega, ?_, ?_⟩
      · intro i hi
        rw [ha2 i (by omega), ha1 i hi]
      · intro v hv cid hcid
        have := hf2 v hv cid hcid
        omega

/-- C5: with the caller's tile objects modelled as heap ids, running the
solver leaves the caller's list exactly as it was (same ids in the same
order), leaves every pre-existing heap entry — in particular every
caller-visible tile value — unchanged, and any returned variant consists
only of freshly allocated copies, sharing no tile object with the input. -/
theorem build_stateful_frame (ids : List Nat) (h : Heap)
    (hvalid : ∀ id ∈ ids, id < h.length) :
    (build_if_possibleS ids h).2.1 = ids ∧
      (∀ i, i < h.length → (build_if_possibleS ids h).2.2[i]? = h[i]?) ∧
      ∀ v, (build_if_possibleS ids h).1 = some v → ∀ cid ∈ v, cid ∉ ids := by
  rcases hp : generate_permutationsS ids h with ⟨perms, ids1, h1⟩
  rcases hb : buildLoopS perms h1 with ⟨res, h2⟩
  have hbuild : build_if_possibleS ids h = (res, ids1, h2) := by
    simp only [build_if_possibleS, hp, hb]
  obtain ⟨hids1, hl1, ha1, -⟩ := permuteS_spec ids.length 0 ids h perms ids1 h1 hp
  obtain ⟨hl2, ha2, hf2⟩ := buildLoopS_spec perms h1 res h2 hb
  refine ⟨?_, ?_, ?_⟩
  · rw [hbuild]
    exact hids1
  · intro i hi
    rw [hbuild]
    show h2[i]? = h[i]?
    rw [ha2 i (by omega), ha1 i hi]
  · intro v hv cid hcid hmem
    rw [hbuild] at hv
    have hfr := hf2 v hv cid hcid
    have hlt := hvalid cid hmem
    omega

theorem build_stateful_frame_witness :
    (build_if_possibleS [0, 1, 2] [(0, 2), (0, 4), (4, 2)]).2.1 = [0, 1, 2] ∧
      (∀ i, i < ([(0, 2), (0, 4), (4, 2)] : Heap).length →
        (build_if_possibleS [0, 1, 2] [(0, 2), (0, 4), (4, 2)]).2.2[i]? =
          ([(0, 2), (0, 4), (4, 2)] : Heap)[i]?) ∧
      ∀ v, (build_if_possibleS [0, 1, 2] [(0, 2), (0, 4), (4, 2)]).1 = some v →
        ∀ cid ∈ v, cid ∉ ([0, 1, 2] : List Nat) :=
  build_stateful_frame [0, 1, 2] [(0, 2), (0, 4), (4, 2)] (by decide)

